import Mathlib

/-!
Verification of the Orbital markdown <-> Quill Delta converter
(`deltaToMarkdown` / `markdownToDelta` in `OrbitalQuillEditor`) and of the
`EmojiBlot` stored-state reconstruction.  Documents are modelled as lists of
Quill operations; strings are modelled as lists of characters.
-/

namespace Orbital

/-! ## Definitions -/

/-- Characters of a string literal, used to state concrete examples. -/
def chars (s : String) : List Char := s.data

/-- JavaScript whitespace, as matched by the regex class `\s` and removed by
`String.prototype.trim` (ECMAScript WhiteSpace plus LineTerminator). -/
def isJsWs (c : Char) : Bool :=
  let n := c.toNat
  n = 0x9 || n = 0xa || n = 0xb || n = 0xc || n = 0xd || n = 0x20 ||
  n = 0xa0 || n = 0x1680 || (0x2000 <= n && n <= 0x200a) ||
  n = 0x2028 || n = 0x2029 || n = 0x202f || n = 0x205f || n = 0x3000 ||
  n = 0xfeff

/-- Remove trailing JavaScript whitespace. -/
def trimRight (l : List Char) : List Char :=
  (l.reverse.dropWhile isJsWs).reverse

/-- `String.prototype.trim`: drop leading and trailing JavaScript whitespace. -/
def jsTrim (l : List Char) : List Char :=
  trimRight (l.dropWhile isJsWs)

/-- The two `list` attribute values used by the editor. -/
inductive ListK
  | ordered
  | bullet
deriving DecidableEq, Repr

/-- Inline and block attributes carried by a Quill operation. -/
structure Attrs where
  bold : Bool := false
  italic : Bool := false
  underline : Bool := false
  list : Option ListK := none
  blockquote : Bool := false
deriving DecidableEq, Repr

/-- No attributes (the JS op simply lacks an `attributes` field). -/
def Attrs.empty : Attrs := {}

def boldA : Attrs := { bold := true }

def italA : Attrs := { italic := true }

def undA : Attrs := { underline := true }

def ordA : Attrs := { list := some ListK.ordered }

def bulA : Attrs := { list := some ListK.bullet }

def bqA : Attrs := { blockquote := true }

/-- A Quill Delta operation: a string insert with attributes, or an embed
insert (`{ emoji: { value } }`) carrying its payload. -/
inductive Op
  | text (content : List Char) (attrs : Attrs)
  | embed (value : String)
deriving DecidableEq, Repr

/-- The newline operation with no attributes. -/
def nlOp : Op := Op.text ['\n'] Attrs.empty

/-- quill-delta `Delta.push`: append an op, merging adjacent string inserts
that carry equal attributes. -/
def pushOp : List Op → Op → List Op
  | [], o => [o]
  | [p], o =>
    match p, o with
    | Op.text s1 a1, Op.text s2 a2 =>
      if a1 = a2 then [Op.text (s1 ++ s2) a1] else [p, o]
    | p, o => [p, o]
  | p :: q :: rest, o => p :: pushOp (q :: rest) o

/-- quill-delta `Delta.insert` for string inserts: skip empty strings, then
`push`. -/
def insertD (d : List Op) (s : List Char) (a : Attrs) : List Op :=
  if s = [] then d else pushOp d (Op.text s a)

/-- Rebuild a document through `push`, i.e. the canonical (merged) form a
quill Delta would hold for the same content. -/
def normalize (d : List Op) : List Op :=
  d.foldl
    (fun acc op =>
      match op with
      | Op.text s a => insertD acc s a
      | Op.embed v => pushOp acc (Op.embed v))
    []

/-- The `nextIsFormattedNewline` lookahead of `deltaToMarkdown`: the next op
is a string insert that is exactly `"\n"` and carries a `list` or
`blockquote` attribute. -/
def nextFormatted : List Op → Option Attrs
  | Op.text c a :: _ =>
    if c = ['\n'] ∧ (a.list.isSome = true ∨ a.blockquote = true) then some a
    else none
  | _ => none

/-- Inline wrapping of `deltaToMarkdown`: bold is applied first (innermost),
then italic, then underline. -/
def wrapAttrs (a : Attrs) (c : List Char) : List Char :=
  let t1 := if a.bold then '*' :: '*' :: (c ++ ['*', '*']) else c
  let t2 := if a.italic then '*' :: (t1 ++ ['*']) else t1
  if a.underline then '<' :: 'u' :: '>' :: (t2 ++ ['<', '/', 'u', '>']) else t2

/-- The main loop of `deltaToMarkdown`, with the `listIndex` counter and the
`isStartOfLine` flag threaded through.  Non-string inserts (embeds) are
skipped.  A line prefix is emitted when `isStartOfLine` holds, the next op is
a formatted newline and the current text is not itself a newline. -/
def emitOps : List Op → Nat → Bool → List Char
  | [], _, _ => []
  | Op.embed _ :: rest, li, sol => emitOps rest li sol
  | Op.text c a :: rest, li, sol =>
    let nf := nextFormatted rest
    let pre : List Char × Nat × Bool :=
      match nf with
      | some na =>
        if sol = true ∧ c ≠ ['\n'] then
          match na.list with
          | some ListK.ordered => ((Nat.repr li).data ++ ['.', ' '], li + 1, false)
          | some ListK.bullet => (['-', ' '], li, false)
          | none => (['>', ' '], li, false)
        else ([], li, sol)
      | none => ([], li, sol)
    let t := if c = ['\n'] then c else wrapAttrs a c
    let li2 := if t = ['\n'] then (match nf with | none => 1 | some _ => pre.2.1)
               else pre.2.1
    let sol2 := if t = ['\n'] then true else pre.2.2
    pre.1 ++ t ++ emitOps rest li2 sol2

/-- `deltaToMarkdown`: run the loop from `listIndex = 1`,
`isStartOfLine = true`, then `trim` the result. -/
def deltaToMarkdown (ops : List Op) : List Char :=
  jsTrim (emitOps ops 1 true)

/-- `String.prototype.split('\n')`. -/
def splitNl : List Char → List (List Char)
  | [] => [[]]
  | a :: t =>
    if a = '\n' then [] :: splitNl t
    else
      match splitNl t with
      | [] => [[a]]
      | h :: r => (a :: h) :: r

/-- ECMAScript LineTerminator characters (LF, CR, LS, PS), which a regex
`.` does not match. -/
def isLineTerm (c : Char) : Bool :=
  c.toNat = 0xa || c.toNat = 0xd || c.toNat = 0x2028 || c.toNat = 0x2029

/-- The ordered-list line match `^(\d+)\.\s+(.*)$`: leading digits, a literal
dot, at least one whitespace character, and the remainder, which `(.*)$`
accepts only if it is free of LineTerminator characters up to the end of the
string (the captured numeral itself is discarded by the caller). -/
def orderedM (l : List Char) : Option (List Char) :=
  if l.takeWhile Char.isDigit = [] then none
  else
    match l.dropWhile Char.isDigit with
    | d :: r2 =>
      if d = '.' then
        if r2.takeWhile isJsWs = [] then none
        else if (r2.dropWhile isJsWs).any isLineTerm then none
        else some (r2.dropWhile isJsWs)
      else none
    | [] => none

/-- Scan for the lazy close of the bold regex: at least one content
character, each of which must be matchable by `.` (so no LineTerminator),
stopping at the first following `**`.  Returns the content and the remainder
after the closing marker; `none` when no close is reachable. -/
def closeScan : List Char → Option (List Char × List Char)
  | [] => none
  | a :: t =>
    match t with
    | b :: c2 :: u =>
      if isLineTerm a then none
      else if b = '*' ∧ c2 = '*' then some ([a], u)
      else (closeScan t).map (fun p => (a :: p.1, p.2))
    | _ => none

/-- The bold-span scanner of `markdownToDelta`, mirroring the JS loop
`while ((match = boldRegex.exec(line)) !== null)` with
`boldRegex = /\\*\\*(.+?)\\*\\*/g`: plain text accumulates (reversed) in `acc`;
at `**` with a reachable close, the accumulated plain segment (if nonempty)
is flushed, a bold segment is produced, and scanning resumes after the
close; at `**` without a reachable close the scanner advances one character
(as the regex engine advances its start position).  The `fuel` argument only
makes the recursion structural; `fuel > l.length` always suffices. -/
def boldAux : Nat → List Char → List Char → List (List Char × Bool)
  | 0, _, _ => []
  | _ + 1, acc, [] => if acc = [] then [] else [(acc.reverse, false)]
  | fuel + 1, acc, a :: t =>
    if (a == '*' && (match t with | b :: _ => b == '*' | [] => false)) then
      match closeScan t.tail with
      | some (c, r) =>
        (if acc = [] then [] else [(acc.reverse, false)]) ++ (c, true) :: boldAux fuel [] r
      | none => boldAux fuel (a :: acc) t
    else boldAux fuel (a :: acc) t

/-- All segments of a line: bold interiors flagged `true`, surrounding plain
text flagged `false`. -/
def boldSegs (l : List Char) : List (List Char × Bool) :=
  boldAux (l.length + 1) [] l

/-- `line.startsWith('> ')`. -/
def startsBq : List Char → Bool
  | a :: b :: _ => a = '>' && b = ' '
  | _ => false

/-- `line.startsWith('- ')`. -/
def startsBullet : List Char → Bool
  | a :: b :: _ => a = '-' && b = ' '
  | _ => false

/-- One line of `markdownToDelta`: blockquote, then ordered list, then bullet
list, then inline bold extraction; every branch appends a newline insert
carrying the line's block attribute. -/
def parseLine (d : List Op) (l : List Char) : List Op :=
  if startsBq l then insertD (insertD d (l.drop 2) Attrs.empty) ['\n'] bqA
  else
    match orderedM l with
    | some r => insertD (insertD d r Attrs.empty) ['\n'] ordA
    | none =>
      if startsBullet l then insertD (insertD d (l.drop 2) Attrs.empty) ['\n'] bulA
      else
        insertD
          ((boldSegs l).foldl
            (fun d sg => insertD d sg.1 (if sg.2 then boldA else Attrs.empty)) d)
          ['\n'] Attrs.empty

/-- `markdownToDelta`: split the input on newlines and parse each line. -/
def markdownToDelta (md : List Char) : List Op :=
  (splitNl md).foldl parseLine []

/-- Ops producible by `markdownToDelta`: string inserts whose attributes never
include italic or underline (the parser only ever tags bold, list and
blockquote). -/
def goodParseOp (x : Op) : Prop :=
  ∃ c a, x = Op.text c a ∧ a.italic = false ∧ a.underline = false

/-- The last operation of a parse result is a string insert whose content ends
with a newline character. -/
def lastEndsNl (d : List Op) : Bool :=
  match d.getLast? with
  | some (Op.text c _) => decide (c.getLast? = some '\n')
  | _ => false

/-- Concatenation of a list of character lists. -/
def catList (ls : List (List Char)) : List Char :=
  ls.foldr (fun a b => a ++ b) []

/-- An op that can never act as a formatted newline: a string insert with no
`list` or `blockquote` attribute, or an embed. -/
def plainishOp (x : Op) : Bool :=
  match x with
  | Op.text _ a => a.list.isNone && !a.blockquote
  | Op.embed _ => true

/-- What one op contributes to the emitted markdown when no line prefix is
in play. -/
def renderOp (x : Op) : List Char :=
  match x with
  | Op.text c a => if c = ['\n'] then ['\n'] else wrapAttrs a c
  | Op.embed _ => []

/-- The first character (if any) is not JavaScript whitespace. -/
def headNonWs (l : List Char) : Bool :=
  match l with
  | [] => true
  | c :: _ => !isJsWs c

/-- The last character (if any) is not JavaScript whitespace. -/
def lastNonWs (l : List Char) : Bool :=
  match l.getLast? with
  | some c => !isJsWs c
  | none => true

/-- One dataset entry: an ASCII variant key and its glyph value. -/
structure EmojiVariant where
  key : String
  value : String
deriving DecidableEq, Repr

/-- Modelled from the spec: the emoji registry of `emojis.std` is missing from
the provided sources (only its callers are present); §4.1 specifies a
read-only bijective mapping between variant keys and glyph values.
`resolveKey` / `getEmojiVariantByKey` looks a key up, failing (`none`) on
unknown keys. -/
def getEmojiVariantByKey (reg : List EmojiVariant) (k : String) :
    Option EmojiVariant :=
  reg.find? (fun v => v.key == k)

/-- Modelled from the spec: `resolveValue` / `getEmojiVariantKeyByValue`, the
inverse lookup, failing (`none`) on glyphs that are not known emoji values. -/
def getEmojiVariantKeyByValue (reg : List EmojiVariant) (g : String) :
    Option String :=
  (reg.find? (fun v => v.value == g)).map (fun v => v.key)

/-- Modelled from the spec: `isEmojiVariantValue`, the membership test used by
the assertion in `EmojiBlot.create`. -/
def isEmojiVariantValue (reg : List EmojiVariant) (g : String) : Bool :=
  (reg.find? (fun v => v.value == g)).isSome

/-- The `{ value, source }` pair produced by `EmojiBlot.value`. -/
structure EmojiBlotValue where
  value : String
  source : Option String
deriving DecidableEq, Repr

/-- The dataset fields of a stored emoji node (`node.dataset`). -/
structure EmojiDataset where
  emojiKey : Option String := none
  emoji : Option String := none
  source : Option String := none
deriving DecidableEq, Repr

/-- The attributes `EmojiBlot.create` stores on the node it builds. -/
structure EmojiNode where
  emojiKey : String
  source : String
deriving DecidableEq, Repr

/-- JavaScript truthiness of an optional string field. -/
def isTruthy : Option String → Bool
  | some s => !(s == "")
  | none => false

namespace EmojiBlot

/-- `EmojiBlot.value`: prefer the ASCII `data-emoji-key` (reconstructing the
glyph through the registry), fall back to the legacy raw `data-emoji` field,
and fail when both are absent. -/
def value (reg : List EmojiVariant) (ds : EmojiDataset) :
    Except String EmojiBlotValue :=
  if isTruthy ds.emojiKey then
    match getEmojiVariantByKey reg (ds.emojiKey.getD "") with
    | some v => Except.ok { value := v.value, source := ds.source }
    | none => Except.error "UnknownEmbedKey"
  else if isTruthy ds.emoji then
    Except.ok { value := ds.emoji.getD "", source := ds.source }
  else
    Except.error "Failed to make EmojiBlot - missing both data-emoji-key and data-emoji"

/-- `EmojiBlot.create`: assert the glyph is a known emoji value
(`strictAssert(isEmojiVariantValue(emoji))`), derive its variant key via the
registry, and store the ASCII key (plus source) on the node. -/
def create (reg : List EmojiVariant) (v : EmojiBlotValue) :
    Except String EmojiNode :=
  if isEmojiVariantValue reg v.value then
    match getEmojiVariantKeyByValue reg v.value with
    | some k => Except.ok { emojiKey := k, source := v.source.getD "" }
    | none => Except.error "UnknownEmbedKey"
  else
    Except.error "Value is not a known emoji"

end EmojiBlot

/-- All three inline attributes at once. -/
def allAttrs : Attrs := { bold := true, italic := true, underline := true }

/-- Ops concatenation. -/
def catOps (ls : List (List Op)) : List Op :=
  ls.foldr (fun a b => a ++ b) []

/-- The ops of one line of bold/plain runs. -/
def lineOps (rs : List (List Char × Bool)) : List Op :=
  rs.map (fun r => Op.text r.1 (if r.2 then boldA else Attrs.empty))

/-- A Document consisting of the given lines of runs, each line terminated by
an unattributed newline op. -/
def docOf (lines : List (List (List Char × Bool))) : List Op :=
  catOps (lines.map (fun rs => lineOps rs ++ [nlOp]))

/-- The markdown text of one line of runs (`**` around bold runs). -/
def lineStr (rs : List (List Char × Bool)) : List Char :=
  catList (rs.map (fun r => if r.2 then '*' :: '*' :: (r.1 ++ ['*', '*']) else r.1))

/-- The emitted body: the line strings joined by newlines. -/
def bodyStr (lines : List (List (List Char × Bool))) : List Char :=
  match lines with
  | [] => []
  | l :: ls => lineStr l ++ catList (ls.map (fun rs => '\n' :: lineStr rs))

/-- A well-formed run: nonempty content without `'*'` and without
LineTerminator characters (which the bold regex dot cannot match). -/
def wfRun (r : List Char × Bool) : Bool :=
  !r.1.isEmpty && r.1.all (fun c => !(c == '*') && !(isLineTerm c))

/-- A well-formed line of runs. -/
def wfLine (rs : List (List Char × Bool)) : Bool :=
  rs.all wfRun

/-- The line is not mistaken for a block construct by the parser. -/
def lineShapeOk (l : List Char) : Bool :=
  !startsBq l && !startsBullet l && (orderedM l).isNone

/-- The expected segmentation of a line of runs, with a pending reversed
plain accumulator: consecutive plain runs coalesce into one plain segment,
bold runs become bold segments. -/
def segsOf (acc : List Char) : List (List Char × Bool) → List (List Char × Bool)
  | [] => if acc = [] then [] else [(acc.reverse, false)]
  | (c, true) :: rest =>
    (if acc = [] then [] else [(acc.reverse, false)]) ++ (c, true) :: segsOf [] rest
  | (c, false) :: rest => segsOf (c.reverse ++ acc) rest

/-- Whether a string opens with `**`. -/
def opensBold : List Char → Bool
  | b :: b2 :: _ => b == '*' && b2 == '*'
  | _ => false

/-! ## Theorems -/

theorem closeScan_nil : closeScan [] = none := rfl

theorem closeScan_one (a : Char) : closeScan [a] = none := rfl

theorem closeScan_two (a b : Char) : closeScan [a, b] = none := rfl

theorem closeScan_cons₃ (a b b2 : Char) (t3 : List Char) :
    closeScan (a :: b :: b2 :: t3) =
      if isLineTerm a then none
      else if b = '*' ∧ b2 = '*' then some ([a], t3)
      else (closeScan (b :: b2 :: t3)).map (fun p => (a :: p.1, p.2)) := rfl

theorem closeScan_length :
    ∀ l c r, closeScan l = some (c, r) → r.length < l.length := by
  intro l
  induction l with
  | nil => simp [closeScan_nil]
  | cons a t ih =>
    intro c r h
    rcases t with _ | ⟨b, t2⟩
    · rw [closeScan_one] at h
      exact absurd h (by simp)
    · rcases t2 with _ | ⟨b2, t3⟩
      · rw [closeScan_two] at h
        exact absurd h (by simp)
      · rw [closeScan_cons₃] at h
        split at h
        · exact absurd h (by simp)
        split at h
        · injection h with hp
          rw [Prod.mk.injEq] at hp
          obtain ⟨hc, hr⟩ := hp
          subst hr
          simp
          omega
        · rw [Option.map_eq_some'] at h
          obtain ⟨p, hp, hq⟩ := h
          have hr : r = p.2 := by
            have h2 := congrArg Prod.snd hq
            simpa using h2.symm
          subst hr
          have := ih p.1 p.2 (by rw [hp])
          simp at this ⊢
          omega

theorem pushOp_ne_nil (d : List Op) (o : Op) : pushOp d o ≠ [] := by
  induction d with
  | nil => simp [pushOp]
  | cons p rest ih =>
    cases rest with
    | nil => cases p <;> cases o <;> simp [pushOp] <;> split <;> simp
    | cons q rest2 => simp [pushOp]

theorem pushOp_cons₂ (p q : Op) (rest : List Op) (o : Op) :
    pushOp (p :: q :: rest) o = p :: pushOp (q :: rest) o := rfl

theorem pushOp_cons_of_ne (p : Op) (d : List Op) (o : Op) (hd : d ≠ []) :
    pushOp (p :: d) o = p :: pushOp d o := by
  cases d with
  | nil => exact absurd rfl hd
  | cons q rest => rfl

theorem pushOp_text_text (d : List Op) (s1 s2 : List Char) (a : Attrs) :
    pushOp (pushOp d (Op.text s1 a)) (Op.text s2 a)
      = pushOp d (Op.text (s1 ++ s2) a) := by
  induction d with
  | nil => simp [pushOp]
  | cons p rest ih =>
    cases rest with
    | nil =>
      cases p with
      | text s0 a0 =>
        by_cases h : a0 = a
        · subst h
          simp [pushOp, List.append_assoc]
        · simp [pushOp, h]
      | embed v => simp [pushOp]
    | cons q rest2 =>
      rw [pushOp_cons₂, pushOp_cons_of_ne p _ _ (pushOp_ne_nil _ _), ih, pushOp_cons₂]

theorem insertD_ne_nil (d : List Op) (s : List Char) (a : Attrs) (hs : s ≠ []) :
    insertD d s a ≠ [] := by
  unfold insertD
  rw [if_neg hs]
  exact pushOp_ne_nil d _

theorem insertD_append (d : List Op) (s1 s2 : List Char) (a : Attrs) :
    insertD (insertD d s1 a) s2 a = insertD d (s1 ++ s2) a := by
  by_cases h1 : s1 = []
  · subst h1
    simp [insertD]
  · by_cases h2 : s2 = []
    · subst h2
      simp [insertD, h1]
    · have h12 : s1 ++ s2 ≠ [] := fun hc => h1 (List.append_eq_nil.mp hc).1
      unfold insertD
      rw [if_neg h1, if_neg h2, if_neg h12]
      exact pushOp_text_text d s1 s2 a

theorem pushOp_mem_cases (d : List Op) (o : Op) (x : Op) (hx : x ∈ pushOp d o) :
    x ∈ d ∨ x = o ∨
      ∃ s1 s2 a, x = Op.text (s1 ++ s2) a ∧ Op.text s1 a ∈ d ∧ o = Op.text s2 a := by
  induction d with
  | nil =>
    simp [pushOp] at hx
    exact Or.inr (Or.inl hx)
  | cons p rest ih =>
    cases rest with
    | nil =>
      cases p with
      | text s1 a1 =>
        cases o with
        | text s2 a2 =>
          by_cases hab : a1 = a2
          · subst hab
            simp [pushOp] at hx
            subst hx
            exact Or.inr (Or.inr ⟨s1, s2, a1, rfl, by simp, rfl⟩)
          · simp [pushOp, hab] at hx
            rcases hx with hx | hx
            · exact Or.inl (by simp [hx])
            · exact Or.inr (Or.inl hx)
        | embed v =>
          simp [pushOp] at hx
          rcases hx with hx | hx
          · exact Or.inl (by simp [hx])
          · exact Or.inr (Or.inl hx)
      | embed v =>
        simp [pushOp] at hx
        rcases hx with hx | hx
        · exact Or.inl (by simp [hx])
        · exact Or.inr (Or.inl hx)
    | cons q rest2 =>
      rw [pushOp_cons₂] at hx
      rcases List.mem_cons.mp hx with hx | hx
      · exact Or.inl (by simp [hx])
      · rcases ih hx with h | h | ⟨s1, s2, a, h1, h2, h3⟩
        · exact Or.inl (List.mem_cons_of_mem p h)
        · exact Or.inr (Or.inl h)
        · exact Or.inr (Or.inr ⟨s1, s2, a, h1, List.mem_cons_of_mem p h2, h3⟩)

theorem insertD_mem_cases (d : List Op) (s : List Char) (a : Attrs) (x : Op)
    (hx : x ∈ insertD d s a) :
    x ∈ d ∨ x = Op.text s a ∨
      ∃ s1, x = Op.text (s1 ++ s) a ∧ Op.text s1 a ∈ d := by
  unfold insertD at hx
  split at hx
  · exact Or.inl hx
  · rcases pushOp_mem_cases d _ x hx with h | h | ⟨s1, s2, a0, h1, h2, h3⟩
    · exact Or.inl h
    · exact Or.inr (Or.inl h)
    · injection h3 with e1 e2
      subst e1
      subst e2
      exact Or.inr (Or.inr ⟨s1, h1, h2⟩)

theorem insertD_good (d : List Op) (s : List Char) (a : Attrs)
    (hd : ∀ x ∈ d, goodParseOp x)
    (ha : a.italic = false ∧ a.underline = false) :
    ∀ x ∈ insertD d s a, goodParseOp x := by
  intro x hx
  rcases insertD_mem_cases d s a x hx with h | h | ⟨s1, h1, h2⟩
  · exact hd x h
  · exact ⟨s, a, h, ha⟩
  · exact ⟨s1 ++ s, a, h1, ha⟩

theorem foldSegs_good (segs : List (List Char × Bool)) (d : List Op)
    (hd : ∀ x ∈ d, goodParseOp x) :
    ∀ x ∈ segs.foldl
        (fun d sg => insertD d sg.1 (if sg.2 then boldA else Attrs.empty)) d,
      goodParseOp x := by
  induction segs generalizing d with
  | nil => exact hd
  | cons sg rest ih =>
    intro x hx
    refine ih (insertD d sg.1 (if sg.2 then boldA else Attrs.empty)) ?_ x hx
    refine insertD_good d _ _ hd ?_
    split <;> simp [boldA, Attrs.empty]

theorem parseLine_good (d : List Op) (l : List Char)
    (hd : ∀ x ∈ d, goodParseOp x) :
    ∀ x ∈ parseLine d l, goodParseOp x := by
  unfold parseLine
  split
  · exact insertD_good _ _ _
      (insertD_good _ _ _ hd (by simp [Attrs.empty])) (by simp [bqA])
  · split
    · exact insertD_good _ _ _
        (insertD_good _ _ _ hd (by simp [Attrs.empty])) (by simp [ordA])
    · split
      · exact insertD_good _ _ _
          (insertD_good _ _ _ hd (by simp [Attrs.empty])) (by simp [bulA])
      · exact insertD_good _ _ _ (foldSegs_good _ _ hd) (by simp [Attrs.empty])

theorem markdownToDelta_good (md : List Char) :
    ∀ x ∈ markdownToDelta md, goodParseOp x := by
  unfold markdownToDelta
  generalize splitNl md = lines
  have main : ∀ (lines : List (List Char)) (d : List Op),
      (∀ x ∈ d, goodParseOp x) → ∀ x ∈ lines.foldl parseLine d, goodParseOp x := by
    intro lines
    induction lines with
    | nil => intro d hd; exact hd
    | cons l ls ih =>
      intro d hd
      exact ih (parseLine d l) (parseLine_good d l hd)
  exact main lines [] (by simp)

theorem splitNl_ne_nil (l : List Char) : splitNl l ≠ [] := by
  induction l with
  | nil => simp [splitNl]
  | cons a t ih =>
    by_cases h : a = '\n'
    · simp [splitNl, h]
    · rcases hsp : splitNl t with _ | ⟨h0, r⟩ <;> simp [splitNl, h, hsp]

theorem pushOp_text_getLast (d : List Op) (s : List Char) (a : Attrs) :
    ∃ s0, (pushOp d (Op.text s a)).getLast? = some (Op.text (s0 ++ s) a) := by
  induction d with
  | nil => exact ⟨[], by simp [pushOp]⟩
  | cons p rest ih =>
    cases rest with
    | nil =>
      cases p with
      | text s1 a1 =>
        by_cases h : a1 = a
        · subst h
          exact ⟨s1, by simp [pushOp]⟩
        · exact ⟨[], by simp [pushOp, h]⟩
      | embed v => exact ⟨[], by simp [pushOp]⟩
    | cons q rest2 =>
      obtain ⟨s0, hs0⟩ := ih
      refine ⟨s0, ?_⟩
      rw [pushOp_cons₂]
      rcases hne : pushOp (q :: rest2) (Op.text s a) with _ | ⟨x, xs⟩
      · exact absurd hne (pushOp_ne_nil _ _)
      · rw [List.getLast?_cons_cons]
        rw [hne] at hs0
        exact hs0

theorem insertD_nl_last (d : List Op) (a : Attrs) :
    lastEndsNl (insertD d ['\n'] a) = true := by
  unfold insertD
  rw [if_neg (by simp)]
  obtain ⟨s0, h⟩ := pushOp_text_getLast d ['\n'] a
  unfold lastEndsNl
  rw [h]
  simp

theorem parseLine_lastEndsNl (d : List Op) (l : List Char) :
    lastEndsNl (parseLine d l) = true := by
  unfold parseLine
  split
  · exact insertD_nl_last _ _
  · split
    · exact insertD_nl_last _ _
    · split
      · exact insertD_nl_last _ _
      · exact insertD_nl_last _ _

theorem markdownToDelta_lastEndsNl (md : List Char) :
    lastEndsNl (markdownToDelta md) = true := by
  unfold markdownToDelta
  have main : ∀ (lines : List (List Char)) (d : List Op), lines ≠ [] →
      lastEndsNl (lines.foldl parseLine d) = true := by
    intro lines
    induction lines with
    | nil => intro d hd; exact absurd rfl hd
    | cons l ls ih =>
      intro d _
      cases ls with
      | nil => simpa using parseLine_lastEndsNl d l
      | cons l2 ls2 => exact ih (parseLine d l) (by simp)
  exact main (splitNl md) [] (splitNl_ne_nil md)

theorem lastEndsNl_ne_nil (d : List Op) (h : lastEndsNl d = true) : d ≠ [] := by
  intro hc
  subst hc
  simp [lastEndsNl] at h

theorem markdownToDelta_ne_nil (md : List Char) : markdownToDelta md ≠ [] :=
  lastEndsNl_ne_nil _ (markdownToDelta_lastEndsNl md)

@[simp] theorem catList_nil : catList [] = [] := rfl

@[simp] theorem catList_cons (a : List Char) (ls : List (List Char)) :
    catList (a :: ls) = a ++ catList ls := rfl

theorem wrapAttrs_ne_nl (a : Attrs) (c : List Char) (h : c ≠ ['\n']) :
    wrapAttrs a c ≠ ['\n'] := by
  rcases hb : a.bold <;> rcases hi : a.italic <;> rcases hu : a.underline <;>
    simp [wrapAttrs, hb, hi, hu, h]

theorem nextFormatted_plainish (rest : List Op)
    (h : ∀ x ∈ rest, plainishOp x = true) :
    nextFormatted rest = none := by
  cases rest with
  | nil => rfl
  | cons x xs =>
    cases x with
    | text c a =>
      have hx := h (Op.text c a) (by simp)
      simp [plainishOp] at hx
      rw [show nextFormatted (Op.text c a :: xs) =
            (if c = ['\n'] ∧ (a.list.isSome = true ∨ a.blockquote = true) then some a
             else none) from rfl]
      rw [if_neg]
      rintro ⟨h1, h2⟩
      rcases h2 with h2 | h2
      · rw [hx.1] at h2
        simp at h2
      · rw [hx.2] at h2
        simp at h2
    | embed v => rfl

theorem emit_plainish :
    ∀ (ops : List Op), (∀ x ∈ ops, plainishOp x = true) →
      ∀ li sol, emitOps ops li sol = catList (ops.map renderOp) := by
  intro ops
  induction ops with
  | nil => intro _ li sol; rfl
  | cons x rest ih =>
    intro h li sol
    have hrest : ∀ y ∈ rest, plainishOp y = true :=
      fun y hy => h y (List.mem_cons_of_mem _ hy)
    cases x with
    | embed v =>
      show emitOps (Op.embed v :: rest) li sol = _
      rw [show emitOps (Op.embed v :: rest) li sol = emitOps rest li sol from rfl]
      rw [ih hrest li sol]
      simp [renderOp]
    | text c a =>
      have hnf : nextFormatted rest = none := nextFormatted_plainish rest hrest
      rw [emitOps]
      simp only [hnf]
      by_cases hc : c = ['\n']
      · subst hc
        simp [renderOp]
        exact ih hrest 1 true
      · have ht : wrapAttrs a c ≠ ['\n'] := wrapAttrs_ne_nl a c hc
        simp [renderOp, hc, ht]
        exact ih hrest li sol

theorem jsTrim_append_nl (l : List Char) (h1 : headNonWs l = true)
    (h2 : lastNonWs l = true) : jsTrim (l ++ ['\n']) = l := by
  cases l with
  | nil => rfl
  | cons a t =>
    have ha : isJsWs a = false := by simpa [headNonWs] using h1
    unfold jsTrim
    rw [List.cons_append, List.dropWhile_cons]
    rw [ha]
    simp only [Bool.false_eq_true, if_false]
    unfold trimRight
    rw [show (a :: (t ++ ['\n'])) = (a :: t) ++ ['\n'] from rfl]
    rw [List.reverse_append]
    rw [show (['\n'] : List Char).reverse = ['\n'] from rfl]
    rcases hrev : (a :: t).reverse with _ | ⟨c0, rs⟩
    · exact absurd hrev (by simp)
    · have hc0 : (a :: t).getLast? = some c0 := by
        rw [← List.head?_reverse, hrev]
        rfl
      have hc0ws : isJsWs c0 = false := by
        unfold lastNonWs at h2
        rw [hc0] at h2
        simpa using h2
      rw [List.singleton_append, List.dropWhile_cons]
      rw [show isJsWs '\n' = true from rfl]
      simp only [if_true]
      rw [List.dropWhile_cons, hc0ws]
      simp only [Bool.false_eq_true, if_false]
      rw [← hrev, List.reverse_reverse]

theorem lastNonWs_append_one (l : List Char) (c : Char) (hc : isJsWs c = false) :
    lastNonWs (l ++ [c]) = true := by
  unfold lastNonWs
  rw [List.getLast?_concat]
  simpa using hc

theorem wrapAttrs_empty (c : List Char) : wrapAttrs Attrs.empty c = c := rfl

theorem wrapAttrs_all (c : List Char) :
    wrapAttrs allAttrs c = chars "<u>***" ++ c ++ chars "***</u>" := by
  rw [show chars "<u>***" = ['<', 'u', '>', '*', '*', '*'] from rfl]
  rw [show chars "***</u>" = ['*', '*', '*', '<', '/', 'u', '>'] from rfl]
  show '<' :: 'u' :: '>' ::
      (('*' :: (('*' :: '*' :: (c ++ ['*', '*'])) ++ ['*'])) ++ ['<', '/', 'u', '>']) = _
  simp [List.append_assoc]

theorem emit_single_plain (c : List Char) :
    deltaToMarkdown [Op.text c Attrs.empty] = jsTrim c := by
  unfold deltaToMarkdown
  rw [emit_plainish [Op.text c Attrs.empty] (by simp [plainishOp, Attrs.empty]) 1 true]
  by_cases hc : c = ['\n']
  · subst hc
    rfl
  · simp [renderOp, hc, wrapAttrs_empty]

/-- Claim C1, counterexample: for the Document `[Embed "1F600", newline]`,
the round trip `markdownToDelta (deltaToMarkdown d)` contains no Embed
operation at all — the embed does not reappear with the same key, refuting
the claimed emoji round-trip idempotence. -/
theorem C1_counterexample :
    ¬ Op.embed "1F600" ∈ markdownToDelta (deltaToMarkdown [Op.embed "1F600", nlOp]) := by
  decide

/-- Claim C1 (amended): embeds never survive the round trip — for every
Document `d`, every operation of `markdownToDelta (deltaToMarkdown d)` is a
plain string insert (the emitter skips non-string inserts and the parser only
produces string inserts), so only plain-text content can be reconstructed. -/
theorem C1_round_trip_text_only (d : List Op) (x : Op)
    (hx : x ∈ markdownToDelta (deltaToMarkdown d)) :
    ∃ c a, x = Op.text c a := by
  obtain ⟨c, a, hxa, _, _⟩ := markdownToDelta_good _ x hx
  exact ⟨c, a, hxa⟩

theorem C1_round_trip_text_only_witness :
    ∃ c a, (Op.text ['\n'] Attrs.empty : Op) = Op.text c a :=
  C1_round_trip_text_only [Op.embed "1F600", nlOp]
    (Op.text ['\n'] Attrs.empty) (by decide)

/-- Claim C2, counterexample: emitting `[Embed "1F600", Text "hi", newline]`
yields exactly `"hi"` — the embed contributes nothing to the markdown, its
glyph value never appears, so the embed's content is dropped, refuting the
claim that embeds emit as their registry glyph. -/
theorem C2_counterexample :
    deltaToMarkdown [Op.embed "1F600", Op.text (chars "hi") Attrs.empty, nlOp]
      = chars "hi" := by
  decide

/-- Claim C2 (amended): `deltaToMarkdown` skips every Embed operation (the
`typeof op.insert !== 'string'` guard): an embed alone emits nothing, an
embed at the head of any Document changes nothing, and an embed before plain
text leaves exactly that text. -/
theorem C2_embeds_skipped :
    (∀ k, deltaToMarkdown [Op.embed k] = []) ∧
    (∀ k d, deltaToMarkdown (Op.embed k :: d) = deltaToMarkdown d) ∧
    (∀ k c, deltaToMarkdown [Op.embed k, Op.text c Attrs.empty] = jsTrim c) := by
  refine ⟨fun k => rfl, fun k d => rfl, fun k c => ?_⟩
  have h : deltaToMarkdown (Op.embed k :: [Op.text c Attrs.empty])
      = deltaToMarkdown [Op.text c Attrs.empty] := rfl
  rw [h, emit_single_plain]

/-- Claim C3: evaluating the code on the claimed input: re-emitting the parse
of `"5. foo\n6. bar\n"` yields `"1. foo\n1. bar"`, not the `"1. foo\n2. bar"`
the claim (and the spec's testable property) states — `listIndex` is reset
after every item because the reset's lookahead inspects the next line's text
op rather than its formatted newline. -/
theorem C3_eval :
    deltaToMarkdown (markdownToDelta (chars "5. foo\n6. bar\n"))
      = chars "1. foo\n1. bar" := by
  decide

/-- Claim C4, counterexample: a Bold+Italic+Underline segment `"x"` emits as
`"<u>***x***</u>"` — underline outermost — not as the claimed
`"***<u>x</u>***"` with bold outermost. -/
theorem C4_counterexample :
    deltaToMarkdown [Op.text (chars "x") allAttrs, nlOp] = chars "<u>***x***</u>" ∧
    deltaToMarkdown [Op.text (chars "x") allAttrs, nlOp] ≠ chars "***<u>x</u>***" := by
  decide

/-- Claim C4 (amended): the nesting order is fixed but with Bold innermost:
bold markers are applied first, italic around them, underline outermost, so a
Bold+Italic+Underline segment `c` always serializes as
`"<u>***" ++ c ++ "***</u>"` (determinism holds; the order is the reverse of
the claimed one). -/
theorem C4_wrap_order (c : List Char) (hc : c ≠ ['\n']) :
    deltaToMarkdown [Op.text c allAttrs, nlOp]
      = chars "<u>***" ++ c ++ chars "***</u>" := by
  unfold deltaToMarkdown
  rw [emit_plainish _ (by simp [plainishOp, allAttrs, nlOp, Attrs.empty]) 1 true]
  simp only [List.map_cons, List.map_nil, catList_cons, catList_nil]
  rw [show renderOp nlOp = ['\n'] from rfl]
  rw [show renderOp (Op.text c allAttrs) = wrapAttrs allAttrs c from by
    simp [renderOp, hc]]
  rw [wrapAttrs_all, List.append_nil]
  refine jsTrim_append_nl _ (by rfl) ?_
  rw [show chars "***</u>" = ['*', '*', '*', '<', '/', 'u'] ++ ['>'] from rfl]
  rw [show chars "<u>***" ++ c ++ (['*', '*', '*', '<', '/', 'u'] ++ ['>'])
      = (chars "<u>***" ++ c ++ ['*', '*', '*', '<', '/', 'u']) ++ ['>'] from by
    simp [List.append_assoc]]
  exact lastNonWs_append_one _ '>' (by decide)

theorem C4_wrap_order_witness :
    chars "x" ≠ ['\n'] ∧
    deltaToMarkdown [Op.text (chars "x") allAttrs, nlOp]
      = chars "<u>***" ++ chars "x" ++ chars "***</u>" :=
  ⟨by decide, C4_wrap_order (chars "x") (by decide)⟩

/-- Claim C6: the parser never attaches Italic or Underline — every text op
in any parse result has both flags false — and concretely, an italic-only
`"x"` round-trips to the plain unattributed text `"*x*"` (markers kept in the
content, merged with the trailing newline) and an underline-only `"x"` to
plain `"<u>x</u>"`. -/
theorem C6_parser_never_italic_underline :
    (∀ (md : List Char) (x : Op), x ∈ markdownToDelta md →
        ∀ (c : List Char) (a : Attrs), x = Op.text c a →
          a.italic = false ∧ a.underline = false) ∧
    markdownToDelta (deltaToMarkdown [Op.text (chars "x") italA, nlOp])
        = [Op.text (chars "*x*\n") Attrs.empty] ∧
    markdownToDelta (deltaToMarkdown [Op.text (chars "x") undA, nlOp])
        = [Op.text (chars "<u>x</u>\n") Attrs.empty] := by
  refine ⟨?_, by decide, by decide⟩
  intro md x hx c a hxa
  obtain ⟨c', a', hxa', hi, hu⟩ := markdownToDelta_good md x hx
  rw [hxa] at hxa'
  injection hxa' with e1 e2
  subst e2
  exact ⟨hi, hu⟩

theorem C6_parser_never_italic_underline_witness :
    Attrs.empty.italic = false ∧ Attrs.empty.underline = false :=
  C6_parser_never_italic_underline.1 (chars "*x*")
    (Op.text (chars "*x*\n") Attrs.empty) (by decide)
    (chars "*x*\n") Attrs.empty rfl

/-- Claim C7: `markdownToDelta` is total and lenient — for every input string
the result is a nonempty Document all of whose operations are plain string
inserts (malformed markup degrades to text; nothing raises). -/
theorem C7_parse_never_fails (md : List Char) :
    markdownToDelta md ≠ [] ∧
    ∀ x ∈ markdownToDelta md, ∃ c a, x = Op.text c a := by
  refine ⟨markdownToDelta_ne_nil md, fun x hx => ?_⟩
  obtain ⟨c, a, hxa, _, _⟩ := markdownToDelta_good md x hx
  exact ⟨c, a, hxa⟩

theorem C7_parse_never_fails_witness :
    (markdownToDelta (chars "**unclosed") ≠ []) ∧
    (∃ c a, (Op.text (chars "**unclosed\n") Attrs.empty : Op) = Op.text c a) :=
  ⟨(C7_parse_never_fails (chars "**unclosed")).1,
   (C7_parse_never_fails (chars "**unclosed")).2
     (Op.text (chars "**unclosed\n") Attrs.empty) (by decide)⟩

/-- Claim C8, counterexample: a Document whose single Text operation contains
an embedded newline (`"a\nb"`) is emitted as the markdown string `"a\nb"` —
emission succeeds and returns a string; no `MalformedDocument` failure path
exists in the code. -/
theorem C8_counterexample :
    deltaToMarkdown [Op.text (chars "a\nb") Attrs.empty] = chars "a\nb" := by
  decide

/-- Claim C8 (amended): `deltaToMarkdown` never fails: it is a total function
into strings, and a lone unattributed Text operation — even one violating the
newline invariant — is emitted literally (then trimmed), with no
`MalformedDocument` error. -/
theorem C8_emit_total (c : List Char) :
    deltaToMarkdown [Op.text c Attrs.empty] = jsTrim c :=
  emit_single_plain c

/-- Claim C10, counterexample: parsing `"a"` yields the single merged
operation `Text "a\n"` — the operation sequence does not end with a newline
operation (an op whose content is exactly `"\n"`), because quill-delta merges
the appended newline into the preceding plain insert. -/
theorem C10_counterexample :
    markdownToDelta (chars "a") = [Op.text (chars "a\n") Attrs.empty] ∧
    chars "a\n" ≠ ['\n'] := by
  decide

/-- Claim C10 (amended): one `"\n"` insert is appended per line, but Delta
merging can fold it into the preceding insert: for every input the parse
result is nonempty and its last operation is a string insert whose content
ends with `'\n'`; parsing the empty string yields exactly one unattributed
newline operation. -/
theorem C10_trailing_newline :
    (∀ md : List Char,
        markdownToDelta md ≠ [] ∧ lastEndsNl (markdownToDelta md) = true) ∧
    markdownToDelta (chars "") = [Op.text ['\n'] Attrs.empty] :=
  ⟨fun md => ⟨markdownToDelta_ne_nil md, markdownToDelta_lastEndsNl md⟩, by decide⟩

/-- Claim C9: reconstructing an Embed from stored state prefers the ASCII
`data-emoji-key` whenever present (the glyph is rebuilt from the registry,
the raw field is ignored); the raw `data-emoji` glyph is used only when the
key is absent; and re-serializing any known glyph through `EmojiBlot.create`
re-derives the ASCII key via the value-to-key lookup and stores it. -/
theorem C9_prefer_ascii_key :
    (∀ (reg : List EmojiVariant) (ds : EmojiDataset) (k : String)
        (v : EmojiVariant),
        ds.emojiKey = some k → (k == "") = false →
        getEmojiVariantByKey reg k = some v →
        EmojiBlot.value reg ds
          = Except.ok { value := v.value, source := ds.source }) ∧
    (∀ (reg : List EmojiVariant) (ds : EmojiDataset) (g : String),
        isTruthy ds.emojiKey = false → ds.emoji = some g → (g == "") = false →
        EmojiBlot.value reg ds = Except.ok { value := g, source := ds.source }) ∧
    (∀ (reg : List EmojiVariant) (g : String) (src : Option String)
        (k : String),
        getEmojiVariantKeyByValue reg g = some k →
        EmojiBlot.create reg { value := g, source := src }
          = Except.ok { emojiKey := k, source := src.getD "" }) := by
  refine ⟨?_, ?_, ?_⟩
  · intro reg ds k v hk hkne hlook
    unfold EmojiBlot.value
    have ht : isTruthy ds.emojiKey = true := by
      rw [hk]
      simp [isTruthy, hkne]
    rw [if_pos ht]
    have hgd : ds.emojiKey.getD "" = k := by
      rw [hk]
      rfl
    rw [hgd, hlook]
  · intro reg ds g hfalse hg hgne
    unfold EmojiBlot.value
    rw [if_neg (by simp [hfalse])]
    have ht : isTruthy ds.emoji = true := by
      rw [hg]
      simp [isTruthy, hgne]
    rw [if_pos ht]
    have hgd : ds.emoji.getD "" = g := by
      rw [hg]
      rfl
    rw [hgd]
  · intro reg g src k hmap
    obtain ⟨v0, hfind, hkey⟩ := Option.map_eq_some'.mp hmap
    unfold EmojiBlot.create
    have hval : isEmojiVariantValue reg g = true := by
      unfold isEmojiVariantValue
      rw [hfind]
      rfl
    rw [if_pos hval]
    simp only [hmap]

theorem C9_prefer_ascii_key_witness :
    EmojiBlot.value [⟨"1F600", "😀"⟩]
        ⟨some "1F600", some "legacy-glyph", some "picker"⟩
      = Except.ok { value := "😀", source := some "picker" } ∧
    EmojiBlot.value [⟨"1F600", "😀"⟩] ⟨none, some "😀", none⟩
      = Except.ok { value := "😀", source := none } ∧
    EmojiBlot.create [⟨"1F600", "😀"⟩] ⟨"😀", none⟩
      = Except.ok { emojiKey := "1F600", source := "" } :=
  ⟨C9_prefer_ascii_key.1 [⟨"1F600", "😀"⟩]
      ⟨some "1F600", some "legacy-glyph", some "picker"⟩ "1F600" ⟨"1F600", "😀"⟩
      rfl (by decide) (by decide),
   C9_prefer_ascii_key.2.1 [⟨"1F600", "😀"⟩] ⟨none, some "😀", none⟩ "😀"
      rfl rfl (by decide),
   C9_prefer_ascii_key.2.2 [⟨"1F600", "😀"⟩] "😀" none "1F600" (by decide)⟩

@[simp] theorem catOps_nil : catOps [] = [] := rfl

@[simp] theorem catOps_cons (a : List Op) (ls : List (List Op)) :
    catOps (a :: ls) = a ++ catOps ls := rfl

/-- `boldAux` equation: at an opening `**`. -/
theorem boldAux_open (fuel : Nat) (acc : List Char) (u : List Char) :
    boldAux (fuel + 1) acc ('*' :: '*' :: u) =
      match closeScan u with
      | some (c, r) =>
        (if acc = [] then [] else [(acc.reverse, false)]) ++ (c, true) :: boldAux fuel [] r
      | none => boldAux fuel ('*' :: acc) ('*' :: u) := rfl

/-- `boldAux` equation: consuming one non-`'*'` character. -/
theorem boldAux_plainc (fuel : Nat) (acc : List Char) (a : Char) (t : List Char)
    (ha : (a == '*') = false) :
    boldAux (fuel + 1) acc (a :: t) = boldAux fuel (a :: acc) t := by
  rw [boldAux.eq_def]
  simp only [ha, Bool.false_and, Bool.false_eq_true, if_false]

@[simp] theorem boldAux_nil (fuel : Nat) (acc : List Char) :
    boldAux (fuel + 1) acc [] = if acc = [] then [] else [(acc.reverse, false)] := rfl

theorem closeScan_cons_notopen (x : Char) (l : List Char)
    (h : opensBold l = false) (hlen : 2 ≤ l.length)
    (hterm : isLineTerm x = false) :
    closeScan (x :: l) = (closeScan l).map (fun p => (x :: p.1, p.2)) := by
  rcases l with _ | ⟨b, _ | ⟨b2, u⟩⟩
  · simp at hlen
  · simp at hlen
  · rw [closeScan_cons₃]
    rw [if_neg (by simp [hterm])]
    rw [if_neg]
    intro hb
    simp [opensBold, hb.1, hb.2] at h

theorem closeScan_of_plain (c : List Char) (hc : ∀ x ∈ c, ¬x = '*')
    (hterm : ∀ x ∈ c, isLineTerm x = false)
    (hne : c ≠ []) (t : List Char) :
    closeScan (c ++ '*' :: '*' :: t) = some (c, t) := by
  induction c with
  | nil => exact absurd rfl hne
  | cons x c' ih =>
    cases c' with
    | nil =>
      rw [show ([x] ++ '*' :: '*' :: t) = x :: '*' :: '*' :: t from rfl]
      rw [closeScan_cons₃]
      rw [if_neg (by simp [hterm x (by simp)])]
      rw [if_pos ⟨rfl, rfl⟩]
    | cons y c'' =>
      have hy : ¬y = '*' := hc y (by simp)
      have hxc : ∀ z ∈ (y :: c''), ¬z = '*' := fun z hz => hc z (by simp [hz])
      have hxt : ∀ z ∈ (y :: c''), isLineTerm z = false :=
        fun z hz => hterm z (by simp [hz])
      rw [show ((x :: y :: c'') ++ '*' :: '*' :: t)
          = x :: ((y :: c'') ++ '*' :: '*' :: t) from rfl]
      rw [closeScan_cons_notopen]
      · rw [ih hxc hxt (by simp)]
        rfl
      · rcases c'' with _ | ⟨z, c3⟩
        · simp [opensBold, hy]
        · simp [opensBold, hy]
      · simp
        omega
      · exact hterm x (by simp)

theorem boldAux_plain_append :
    ∀ (c : List Char), (∀ x ∈ c, (x == '*') = false) →
      ∀ (fuel : Nat) (acc L : List Char), c.length + L.length < fuel →
        boldAux fuel acc (c ++ L) = boldAux (fuel - c.length) (c.reverse ++ acc) L := by
  intro c
  induction c with
  | nil =>
    intro _ fuel acc L _
    simp
  | cons x c' ih =>
    intro hc fuel acc L hfuel
    rcases fuel with _ | f
    · simp at hfuel
    · rw [List.cons_append]
      rw [boldAux_plainc f acc x (c' ++ L) (hc x (by simp))]
      rw [ih (fun z hz => hc z (by simp [hz])) f (x :: acc) L
        (by simp at hfuel ⊢; omega)]
      have e1 : f - c'.length = (f + 1) - (x :: c').length := by
        simp
      have e2 : c'.reverse ++ (x :: acc) = (x :: c').reverse ++ acc := by
        simp
      rw [e1, e2]

theorem boldAux_lineStr :
    ∀ (rs : List (List Char × Bool)), wfLine rs = true →
      ∀ (fuel : Nat) (acc : List Char), (lineStr rs).length < fuel →
        boldAux fuel acc (lineStr rs) = segsOf acc rs := by
  intro rs
  induction rs with
  | nil =>
    intro _ fuel acc hfuel
    rcases fuel with _ | f
    · simp at hfuel
    · rw [show lineStr [] = [] from rfl, boldAux_nil]
      rfl
  | cons r rest ih =>
    intro hwf fuel acc hfuel
    obtain ⟨c, b⟩ := r
    have hparts := hwf
    rw [wfLine, List.all_cons, Bool.and_eq_true] at hparts
    obtain ⟨hwfr, hrest⟩ := hparts
    rw [wfRun, Bool.and_eq_true] at hwfr
    obtain ⟨hne0, hall⟩ := hwfr
    have hcne : c ≠ [] := by
      simpa using hne0
    have hcstar : ∀ x ∈ c, (x == '*') = false := by
      intro x hx
      have := List.all_eq_true.mp hall x hx
      rw [Bool.and_eq_true] at this
      simpa using this.1
    have hcterm : ∀ x ∈ c, isLineTerm x = false := by
      intro x hx
      have := List.all_eq_true.mp hall x hx
      rw [Bool.and_eq_true] at this
      simpa using this.2
    cases b with
    | false =>
      rw [show lineStr ((c, false) :: rest) = c ++ lineStr rest from by
        simp [lineStr]]
      have hlen : c.length + (lineStr rest).length < fuel := by
        have : (c ++ lineStr rest).length < fuel := by
          rw [show lineStr ((c, false) :: rest) = c ++ lineStr rest from by
            simp [lineStr]] at hfuel
          exact hfuel
        simpa using this
      rw [boldAux_plain_append c hcstar fuel acc (lineStr rest) hlen]
      rw [ih hrest (fuel - c.length) (c.reverse ++ acc) (by omega)]
      rfl
    | true =>
      have hshape : lineStr ((c, true) :: rest)
          = '*' :: '*' :: (c ++ '*' :: '*' :: lineStr rest) := by
        simp [lineStr, List.append_assoc]
      rw [hshape]
      rw [hshape] at hfuel
      rcases fuel with _ | f
      · simp at hfuel
      · rw [boldAux_open f acc (c ++ '*' :: '*' :: lineStr rest)]
        rw [closeScan_of_plain c
          (fun x hx => by simpa using hcstar x hx) hcterm hcne (lineStr rest)]
        show (if acc = [] then [] else [(acc.reverse, false)])
            ++ (c, true) :: boldAux f [] (lineStr rest) = _
        rw [ih hrest f [] (by simp at hfuel; omega)]
        rfl

theorem insertD_nil_s (d : List Op) (a : Attrs) : insertD d [] a = d := rfl

theorem foldSegs_eq :
    ∀ (rs : List (List Char × Bool)) (acc : List Char) (d : List Op),
      (segsOf acc rs).foldl
          (fun d sg => insertD d sg.1 (if sg.2 then boldA else Attrs.empty)) d
        = rs.foldl
            (fun d r => insertD d r.1 (if r.2 then boldA else Attrs.empty))
            (insertD d acc.reverse Attrs.empty) := by
  intro rs
  induction rs with
  | nil =>
    intro acc d
    by_cases ha : acc = []
    · subst ha
      simp [segsOf, insertD_nil_s]
    · rw [show segsOf acc [] = [(acc.reverse, false)] from by simp [segsOf, ha]]
      simp
  | cons r rest ih =>
    intro acc d
    obtain ⟨c, b⟩ := r
    cases b with
    | false =>
      rw [show segsOf acc ((c, false) :: rest) = segsOf (c.reverse ++ acc) rest
        from rfl]
      rw [ih (c.reverse ++ acc) d]
      rw [List.foldl_cons]
      have e1 : (c.reverse ++ acc).reverse = acc.reverse ++ c := by
        simp
      rw [e1, ← insertD_append]
      simp
    | true =>
      rw [show segsOf acc ((c, true) :: rest)
          = (if acc = [] then [] else [(acc.reverse, false)])
            ++ (c, true) :: segsOf [] rest from rfl]
      rw [List.foldl_append]
      by_cases ha : acc = []
      · subst ha
        rw [if_pos rfl]
        rw [List.foldl_nil, List.foldl_cons, ih []]
        rw [List.foldl_cons]
        simp [insertD_nil_s]
      · rw [if_neg ha]
        rw [show ([(acc.reverse, false)] : List (List Char × Bool)).foldl
              (fun d sg => insertD d sg.1 (if sg.2 then boldA else Attrs.empty)) d
            = insertD d acc.reverse Attrs.empty from rfl]
        rw [List.foldl_cons, ih []]
        rw [List.foldl_cons]
        simp [insertD_nil_s]

theorem parseLine_lineStr (rs : List (List Char × Bool)) (hwf : wfLine rs = true)
    (hshape : lineShapeOk (lineStr rs) = true) (d : List Op) :
    parseLine d (lineStr rs)
      = insertD
          (rs.foldl
            (fun d r => insertD d r.1 (if r.2 then boldA else Attrs.empty)) d)
          ['\n'] Attrs.empty := by
  rw [lineShapeOk, Bool.and_eq_true, Bool.and_eq_true] at hshape
  obtain ⟨⟨hbq, hbul⟩, hordn⟩ := hshape
  have hbq' : startsBq (lineStr rs) = false := by simpa using hbq
  have hbul' : startsBullet (lineStr rs) = false := by simpa using hbul
  have hord : orderedM (lineStr rs) = none := by
    rwa [Option.isNone_iff_eq_none] at hordn
  unfold parseLine
  rw [if_neg (by simp [hbq'])]
  simp only [hord]
  rw [if_neg (by simp [hbul'])]
  unfold boldSegs
  rw [boldAux_lineStr rs hwf ((lineStr rs).length + 1) [] (by omega)]
  rw [foldSegs_eq rs [] d]
  rw [show (([] : List Char)).reverse = [] from rfl, insertD_nil_s]

theorem foldl_catOps {α : Type} (f : α → Op → α) :
    ∀ (ls : List (List Op)) (d : α),
      (catOps ls).foldl f d = ls.foldl (fun d l => l.foldl f d) d := by
  intro ls
  induction ls with
  | nil => intro d; rfl
  | cons a ls ih =>
    intro d
    rw [catOps_cons, List.foldl_append, List.foldl_cons]
    exact ih _

theorem normalize_docOf (lines : List (List (List Char × Bool))) :
    normalize (docOf lines)
      = lines.foldl
          (fun d rs =>
            insertD
              (rs.foldl
                (fun d r => insertD d r.1 (if r.2 then boldA else Attrs.empty)) d)
              ['\n'] Attrs.empty)
          [] := by
  unfold normalize docOf
  rw [foldl_catOps]
  rw [List.foldl_map]
  congr 1
  funext d rs
  rw [List.foldl_append, List.foldl_cons, List.foldl_nil]
  rw [lineOps, List.foldl_map]
  rfl

theorem catList_append (xs ys : List (List Char)) :
    catList (xs ++ ys) = catList xs ++ catList ys := by
  induction xs with
  | nil => simp
  | cons a xs ih => simp [ih]

theorem docOf_plainish :
    ∀ (lines : List (List (List Char × Bool))) (x : Op),
      x ∈ docOf lines → plainishOp x = true := by
  intro lines
  induction lines with
  | nil => intro x hx; simp [docOf] at hx
  | cons l ls ih =>
    intro x hx
    rw [show docOf (l :: ls) = (lineOps l ++ [nlOp]) ++ docOf ls from rfl] at hx
    rcases List.mem_append.mp hx with h | h
    · rcases List.mem_append.mp h with h2 | h2
      · obtain ⟨r, _, hxr⟩ := List.mem_map.mp h2
        subst hxr
        rcases r.2 <;> simp [plainishOp, boldA, Attrs.empty]
      · simp at h2
        subst h2
        rfl
    · exact ih x h

theorem wfRun_ne_nl (r : List Char × Bool) (hr : wfRun r = true) :
    r.1 ≠ ['\n'] := by
  rw [wfRun, Bool.and_eq_true] at hr
  intro hc
  have := List.all_eq_true.mp hr.2 '\n' (by rw [hc]; simp)
  rw [Bool.and_eq_true] at this
  have h2 : isLineTerm '\n' = false := by simpa using this.2
  exact absurd h2 (by decide)

theorem renderOp_run (r : List Char × Bool) (hr : wfRun r = true) :
    renderOp (Op.text r.1 (if r.2 then boldA else Attrs.empty))
      = if r.2 then '*' :: '*' :: (r.1 ++ ['*', '*']) else r.1 := by
  rw [show renderOp (Op.text r.1 (if r.2 then boldA else Attrs.empty))
      = (if r.1 = ['\n'] then ['\n']
         else wrapAttrs (if r.2 then boldA else Attrs.empty) r.1) from rfl]
  rw [if_neg (wfRun_ne_nl r hr)]
  rcases r with ⟨c, b⟩
  cases b <;> rfl

theorem render_docOf :
    ∀ (lines : List (List (List Char × Bool))),
      (∀ rs ∈ lines, wfLine rs = true) →
      catList ((docOf lines).map renderOp)
        = catList (lines.map (fun rs => lineStr rs ++ ['\n'])) := by
  intro lines
  induction lines with
  | nil => intro _; rfl
  | cons l ls ih =>
    intro hwf
    rw [show docOf (l :: ls) = (lineOps l ++ [nlOp]) ++ docOf ls from rfl]
    rw [List.map_append, catList_append]
    rw [List.map_cons, catList_cons]
    rw [ih (fun rs hrs => hwf rs (by simp [hrs]))]
    have hl : catList ((lineOps l ++ [nlOp]).map renderOp) = lineStr l ++ ['\n'] := by
      rw [List.map_append, catList_append]
      rw [show catList ([nlOp].map renderOp) = ['\n'] from rfl]
      have hwl := hwf l (by simp)
      rw [lineOps, List.map_map, lineStr]
      have hmap : List.map
            (renderOp ∘ fun r => Op.text r.1 (if r.2 then boldA else Attrs.empty)) l
          = List.map
              (fun r => if r.2 then '*' :: '*' :: (r.1 ++ ['*', '*']) else r.1) l := by
        apply List.map_congr_left
        intro r hr
        have hwr : wfRun r = true := by
          rw [wfLine] at hwl
          exact List.all_eq_true.mp hwl r hr
        exact renderOp_run r hwr
      rw [hmap]
    rw [hl]

theorem bodyStr_cons₂ (l l2 : List (List Char × Bool))
    (ls2 : List (List (List Char × Bool))) :
    bodyStr (l :: l2 :: ls2) = lineStr l ++ '\n' :: bodyStr (l2 :: ls2) := by
  rw [show bodyStr (l :: l2 :: ls2)
      = lineStr l ++ catList ((l2 :: ls2).map (fun rs => '\n' :: lineStr rs))
      from rfl]
  rw [show bodyStr (l2 :: ls2)
      = lineStr l2 ++ catList (ls2.map (fun rs => '\n' :: lineStr rs)) from rfl]
  simp

theorem catList_lines_eq_body :
    ∀ (lines : List (List (List Char × Bool))), lines ≠ [] →
      catList (lines.map (fun rs => lineStr rs ++ ['\n'])) = bodyStr lines ++ ['\n'] := by
  intro lines
  induction lines with
  | nil => intro h; exact absurd rfl h
  | cons l ls ih =>
    intro _
    cases ls with
    | nil => simp [bodyStr]
    | cons l2 ls2 =>
      rw [List.map_cons, catList_cons, ih (by simp)]
      rw [bodyStr_cons₂]
      simp

theorem emit_docOf (lines : List (List (List Char × Bool))) (hne : lines ≠ [])
    (hwf : ∀ rs ∈ lines, wfLine rs = true)
    (hhead : headNonWs (bodyStr lines) = true)
    (hlast : lastNonWs (bodyStr lines) = true) :
    deltaToMarkdown (docOf lines) = bodyStr lines := by
  unfold deltaToMarkdown
  rw [emit_plainish _ (docOf_plainish lines) 1 true]
  rw [render_docOf lines hwf]
  rw [catList_lines_eq_body lines hne]
  exact jsTrim_append_nl _ hhead hlast

theorem splitNl_no_nl :
    ∀ (l : List Char), (∀ x ∈ l, ¬x = '\n') → splitNl l = [l] := by
  intro l
  induction l with
  | nil => intro _; rfl
  | cons a t ih =>
    intro h
    have ha : ¬a = '\n' := h a (by simp)
    rw [splitNl]
    rw [if_neg ha]
    rw [ih (fun x hx => h x (by simp [hx]))]

theorem splitNl_append :
    ∀ (l rest : List Char), (∀ x ∈ l, ¬x = '\n') →
      splitNl (l ++ '\n' :: rest) = l :: splitNl rest := by
  intro l
  induction l with
  | nil =>
    intro rest _
    rw [List.nil_append, splitNl, if_pos rfl]
  | cons a t ih =>
    intro rest h
    have ha : ¬a = '\n' := h a (by simp)
    rw [List.cons_append, splitNl, if_neg ha]
    rw [ih rest (fun x hx => h x (by simp [hx]))]

theorem lineStr_no_nl :
    ∀ (rs : List (List Char × Bool)), wfLine rs = true →
      ∀ x ∈ lineStr rs, ¬x = '\n' := by
  intro rs
  induction rs with
  | nil => intro _ x hx; simp [lineStr] at hx
  | cons r rest ih =>
    intro hwf x hx
    rw [wfLine, List.all_cons, Bool.and_eq_true] at hwf
    obtain ⟨hwfr, hrest⟩ := hwf
    rw [show lineStr (r :: rest)
        = (if r.2 then '*' :: '*' :: (r.1 ++ ['*', '*']) else r.1) ++ lineStr rest
        from by simp [lineStr]] at hx
    rcases List.mem_append.mp hx with h | h
    · have hrun : ∀ y ∈ r.1, ¬y = '\n' := by
        intro y hy
        rw [wfRun, Bool.and_eq_true] at hwfr
        have := List.all_eq_true.mp hwfr.2 y hy
        rw [Bool.and_eq_true] at this
        have h2 : isLineTerm y = false := by simpa using this.2
        intro hynl
        rw [hynl] at h2
        exact absurd h2 (by decide)
      rcases hb : r.2 with _ | _
      · rw [hb] at h
        simp only [if_false, Bool.false_eq_true] at h
        exact hrun x h
      · rw [hb] at h
        simp only [if_true] at h
        have hx2 : x = '*' ∨ x ∈ r.1 := by
          simp only [List.mem_cons, List.mem_append, List.mem_singleton] at h
          tauto
        rcases hx2 with h2 | h2
        · rw [h2]; decide
        · exact hrun x h2
    · exact ih hrest x h

theorem splitNl_bodyStr :
    ∀ (lines : List (List (List Char × Bool))), lines ≠ [] →
      (∀ rs ∈ lines, wfLine rs = true) →
      splitNl (bodyStr lines) = lines.map lineStr := by
  intro lines
  induction lines with
  | nil => intro h _; exact absurd rfl h
  | cons l ls ih =>
    intro _ hwf
    cases ls with
    | nil =>
      rw [show bodyStr [l] = lineStr l ++ [] from rfl, List.append_nil]
      rw [splitNl_no_nl (lineStr l) (lineStr_no_nl l (hwf l (by simp)))]
      rfl
    | cons l2 ls2 =>
      rw [bodyStr_cons₂]
      rw [splitNl_append _ _ (lineStr_no_nl l (hwf l (by simp)))]
      rw [ih (by simp) (fun rs hrs => hwf rs (by simp [hrs]))]
      rfl

/-- Claim C5, counterexample: a plain (unattributed) Text operation whose
content is `"**x**"` comes back from the round trip as a Bold-attributed
`"x"` — plain text does not stay plain, refuting the claim as stated for
arbitrary plain/bold documents. -/
theorem C5_counterexample :
    markdownToDelta (deltaToMarkdown [Op.text (chars "**x**") Attrs.empty, nlOp])
        = [Op.text (chars "x") boldA, Op.text ['\n'] Attrs.empty] ∧
    boldA ≠ Attrs.empty := by
  decide

/-- Claim C5 (amended): the bold round trip holds on documents of plain and
Bold runs arranged in newline-terminated lines, provided (each restriction
forced by a concrete failure) every run is nonempty and free of `'*'` and of
LineTerminator characters (the bold regex `.` cannot match `'\n'`, `'\r'`,
LS or PS), no emitted line is shaped like a blockquote / ordered / bullet
line, and the emitted body has no leading or trailing JavaScript whitespace;
then `markdownToDelta (deltaToMarkdown d)` equals `d` in quill-delta
canonical form (`normalize`, merging adjacent equal-attribute inserts): Bold
is restored on exactly the original spans and plain text stays plain. -/
theorem C5_bold_round_trip (lines : List (List (List Char × Bool)))
    (hne : lines ≠ [])
    (hwf : ∀ rs ∈ lines, wfLine rs = true)
    (hshape : ∀ rs ∈ lines, lineShapeOk (lineStr rs) = true)
    (hhead : headNonWs (bodyStr lines) = true)
    (hlast : lastNonWs (bodyStr lines) = true) :
    markdownToDelta (deltaToMarkdown (docOf lines)) = normalize (docOf lines) := by
  rw [emit_docOf lines hne hwf hhead hlast]
  unfold markdownToDelta
  rw [splitNl_bodyStr lines hne hwf]
  rw [normalize_docOf lines]
  have main : ∀ (ls : List (List (List Char × Bool))) (d : List Op),
      (∀ rs ∈ ls, wfLine rs = true) →
      (∀ rs ∈ ls, lineShapeOk (lineStr rs) = true) →
      (ls.map lineStr).foldl parseLine d
        = ls.foldl
            (fun d rs =>
              insertD
                (rs.foldl
                  (fun d r => insertD d r.1 (if r.2 then boldA else Attrs.empty)) d)
                ['\n'] Attrs.empty) d := by
    intro ls
    induction ls with
    | nil => intro d _ _; rfl
    | cons l ls2 ih =>
      intro d hw hs
      rw [List.map_cons, List.foldl_cons, List.foldl_cons]
      rw [parseLine_lineStr l (hw l (by simp)) (hs l (by simp)) d]
      exact ih _ (fun rs hrs => hw rs (by simp [hrs]))
        (fun rs hrs => hs rs (by simp [hrs]))
  exact main lines [] hwf hshape

theorem C5_bold_round_trip_witness :
    ([[(chars "plain ", false), (chars "bold", true)], [(chars "tail", false)]]
        : List (List (List Char × Bool))) ≠ [] ∧
    markdownToDelta (deltaToMarkdown (docOf
        [[(chars "plain ", false), (chars "bold", true)], [(chars "tail", false)]]))
      = normalize (docOf
        [[(chars "plain ", false), (chars "bold", true)], [(chars "tail", false)]]) :=
  ⟨by decide,
   C5_bold_round_trip
     [[(chars "plain ", false), (chars "bold", true)], [(chars "tail", false)]]
     (by decide) (by decide) (by decide) (by decide) (by decide)⟩

theorem C2_embeds_skipped_witness :
    deltaToMarkdown [Op.embed "1F600"] = [] :=
  C2_embeds_skipped.1 "1F600"

theorem C8_emit_total_witness :
    deltaToMarkdown [Op.text (chars "a\nb") Attrs.empty] = jsTrim (chars "a\nb") :=
  C8_emit_total (chars "a\nb")

theorem C10_trailing_newline_witness :
    markdownToDelta (chars "q") ≠ [] ∧
    lastEndsNl (markdownToDelta (chars "q")) = true :=
  C10_trailing_newline.1 (chars "q")

end Orbital
